import Mathlib

/-!
# Shallow embedding of the luxcoin core (src/src/core/*.rs)

Bytes are modelled as `Nat` values below 256, byte strings as `List Nat`.
A `Sha256` digest is a 32-byte list produced by the SHA-256 function below.
Machine integers (`u32`, `i32`, `i64`) are modelled as `Nat`/`Int`; overflow
is irrelevant to the verified paths (all arithmetic in the source on these
types is display or bounded indexing).
-/

namespace Lux

/-- Truncate to 32 bits (the `u32` word size of SHA-256). -/
def w32 (x : Nat) : Nat := x % 4294967296

/-- 32-bit right rotation. -/
def rotr (n x : Nat) : Nat := w32 ((x >>> n) ||| (x <<< (32 - n)))

def bigSigma0 (x : Nat) : Nat := (rotr 2 x) ^^^ (rotr 13 x) ^^^ (rotr 22 x)

def bigSigma1 (x : Nat) : Nat := (rotr 6 x) ^^^ (rotr 11 x) ^^^ (rotr 25 x)

def smallSigma0 (x : Nat) : Nat := (rotr 7 x) ^^^ (rotr 18 x) ^^^ (x >>> 3)

def smallSigma1 (x : Nat) : Nat := (rotr 17 x) ^^^ (rotr 19 x) ^^^ (x >>> 10)

def ch (x y z : Nat) : Nat := (x &&& y) ^^^ ((x ^^^ 4294967295) &&& z)

def maj (x y z : Nat) : Nat := (x &&& y) ^^^ (x &&& z) ^^^ (y &&& z)

/-- The 64 SHA-256 round constants (FIPS 180-4, in decimal). -/
def K : List Nat :=
  [1116352408, 1899447441, 3049323471, 3921009573, 961987163, 1508970993,
   2453635748, 2870763221, 3624381080, 310598401, 607225278, 1426881987,
   1925078388, 2162078206, 2614888103, 3248222580, 3835390401, 4022224774,
   264347078, 604807628, 770255983, 1249150122, 1555081692, 1996064986,
   2554220882, 2821834349, 2952996808, 3210313671, 3336571891, 3584528711,
   113926993, 338241895, 666307205, 773529912, 1294757372, 1396182291,
   1695183700, 1986661051, 2177026350, 2456956037, 2730485921, 2820302411,
   3259730800, 3345764771, 3516065817, 3600352804, 4094571909, 275423344,
   430227734, 506948616, 659060556, 883997877, 958139571, 1322822218,
   1537002063, 1747873779, 1955562222, 2024104815, 2227730452, 2361852424,
   2428436474, 2756734187, 3204031479, 3329325298]

/-- The SHA-256 initial hash state (in decimal). -/
def H0 : List Nat :=
  [1779033703, 3144134277, 1013904242, 2773480762, 1359893119, 2600822924,
   528734635, 1541459225]

/-- One message-schedule extension step; `ws` is the reversed schedule so far. -/
def scheduleStep (ws : List Nat) : List Nat :=
  w32 (smallSigma1 (ws.getD 1 0) + ws.getD 6 0 + smallSigma0 (ws.getD 14 0) + ws.getD 15 0) :: ws

/-- The 64-entry message schedule of a 16-word block. -/
def mkSchedule (block : List Nat) : List Nat :=
  (Nat.repeat scheduleStep 48 block.reverse).reverse

/-- One compression round; the state is the 8-word vector [a,b,c,d,e,f,g,h]. -/
def round (st : List Nat) (kw : Nat × Nat) : List Nat :=
  match st with
  | [a, b, c, d, e, f, g, h] =>
    let t1 := w32 (h + bigSigma1 e + ch e f g + kw.1 + kw.2)
    let t2 := w32 (bigSigma0 a + maj a b c)
    [w32 (t1 + t2), a, b, c, w32 (d + t1), e, f, g]
  | other => other

/-- SHA-256 compression of one 16-word block into the running state. -/
def compress (h : List Nat) (block : List Nat) : List Nat :=
  let st := (List.zip K (mkSchedule block)).foldl round h
  List.zipWith (fun x y => w32 (x + y)) h st

/-- Big-endian 4-byte grouping of a byte list into 32-bit words. -/
def toWords : List Nat → List Nat
  | a :: b :: c :: d :: rest => (a * 16777216 + b * 65536 + c * 256 + d) :: toWords rest
  | _ => []

/-- Split a byte list into 64-byte blocks (fuelled for structural recursion). -/
def toBlocksAux : Nat → List Nat → List (List Nat)
  | 0, _ => []
  | _ + 1, [] => []
  | n + 1, bs => toWords (bs.take 64) :: toBlocksAux n (bs.drop 64)

/-- The 8-byte big-endian encoding of the 64-bit message bit length. -/
def lenBytes (len : Nat) : List Nat :=
  let b := 8 * len
  [(b >>> 56) &&& 255, (b >>> 48) &&& 255, (b >>> 40) &&& 255, (b >>> 32) &&& 255,
   (b >>> 24) &&& 255, (b >>> 16) &&& 255, (b >>> 8) &&& 255, b &&& 255]

/-- SHA-256 padding: 0x80, zeros to 56 mod 64, then the bit length. -/
def padMsg (msg : List Nat) : List Nat :=
  msg ++ 0x80 :: List.replicate ((119 - msg.length % 64) % 64) 0 ++ lenBytes msg.length

/-- Big-endian byte decomposition of a 32-bit word. -/
def wordBytes (w : Nat) : List Nat :=
  [(w >>> 24) &&& 255, (w >>> 16) &&& 255, (w >>> 8) &&& 255, w &&& 255]

/-- SHA-256 of a byte list, as a 32-byte list. This is the pure function the
`sha2` crate computes in `crypto::hash` (src/core/crypto.rs, hash). -/
def hash (data : List Nat) : List Nat :=
  let padded := padMsg data
  (((toBlocksAux padded.length padded).foldl compress H0).map wordBytes).flatten

/-- UTF-8 encoding of one unicode code point (Rust `str::as_bytes` semantics). -/
def utf8Encode (c : Nat) : List Nat :=
  if c < 0x80 then [c]
  else if c < 0x800 then [0xc0 ||| (c >>> 6), 0x80 ||| (c &&& 0x3f)]
  else if c < 0x10000 then
    [0xe0 ||| (c >>> 12), 0x80 ||| ((c >>> 6) &&& 0x3f), 0x80 ||| (c &&& 0x3f)]
  else
    [0xf0 ||| (c >>> 18), 0x80 ||| ((c >>> 12) &&& 0x3f), 0x80 ||| ((c >>> 6) &&& 0x3f),
     0x80 ||| (c &&& 0x3f)]

/-- The UTF-8 bytes of a string (Rust `String::as_bytes`). -/
def strBytes (s : String) : List Nat :=
  (s.data.map (fun c => utf8Encode c.toNat)).flatten

/-- The lowercase hex digit of a nibble (`hex::encode` character set). -/
def hexChar (n : Nat) : Char :=
  if n < 10 then Char.ofNat (48 + n) else Char.ofNat (87 + n)

/-- Lowercase hex encoding of a byte list (`crypto::as_hex` / `hex::encode`). -/
def as_hex (bytes : List Nat) : String :=
  String.mk ((bytes.map (fun b => [hexChar (b / 16), hexChar (b % 16)])).flatten)

/-- The sixteen characters `hex::encode` can emit. -/
def lowerHexDigits : List Char :=
  ("0123456789abcdef" : String).data

/-- Decode one hex character (the `hex` crate accepts 0-9, a-f, A-F). -/
def decodeHexDigit (c : Char) : Option Nat :=
  if 48 ≤ c.toNat ∧ c.toNat ≤ 57 then some (c.toNat - 48)
  else if 97 ≤ c.toNat ∧ c.toNat ≤ 102 then some (c.toNat - 87)
  else if 65 ≤ c.toNat ∧ c.toNat ≤ 70 then some (c.toNat - 55)
  else none

/-- `hex::decode` over the character list: fails on an odd-length input or a
non-hex character, otherwise yields the byte list. -/
def hexDecodeChars : List Char → Option (List Nat)
  | [] => some []
  | [_] => none
  | hi :: lo :: rest =>
    match decodeHexDigit hi, decodeHexDigit lo, hexDecodeChars rest with
    | some h, some l, some tail => some ((16 * h + l) :: tail)
    | _, _, _ => none

/-- The two failure kinds of `crypto::from_hex`: the `hex::decode` error
string, or the "Invalid sha length" message built when the byte count is
not 32 (src/core/crypto.rs, from_hex). -/
inductive FromHexError where
  | decodeError : FromHexError
  | lengthError (got : Nat) : FromHexError
  deriving DecidableEq

/-- `crypto::from_hex`: hex-decode, then demand exactly 32 bytes. -/
def from_hex (s : String) : Except FromHexError (List Nat) :=
  match hexDecodeChars s.data with
  | none => .error .decodeError
  | some bytes =>
    if bytes.length = 32 then .ok bytes else .error (.lengthError bytes.length)

/-- The sequential `hash[i] = 0` loop over `0..k` in `crypto::target_hash`:
`none` models the index-out-of-bounds panic when `k` exceeds the length. -/
def zeroFirst : List Nat → Nat → Option (List Nat)
  | l, 0 => some l
  | [], _ + 1 => none
  | _ :: t, k + 1 => (zeroFirst t k).map (0 :: ·)

/-- A single array store `l[k] = v`; `none` models the bounds panic. -/
def setAt : List Nat → Nat → Nat → Option (List Nat)
  | [], _, _ => none
  | _ :: t, 0, v => some (v :: t)
  | h :: t, k + 1, v => (setAt t k v).map (h :: ·)

/-- `crypto::target_hash` (src/core/crypto.rs lines 136-151): start from 32
bytes of 0xff, zero the first `n / 8` bytes, and unless `n` is a multiple of
8 set byte `n / 8` to `(1 << (8 - n % 8)) - 1`. `none` models a panic. -/
def target_hash (n_zero_bits : Nat) : Option (List Nat) :=
  let num_zero_bytes := n_zero_bits / 8
  match zeroFirst (List.replicate 32 0xff) num_zero_bytes with
  | none => none
  | some h =>
    let remainder := 8 - n_zero_bits % 8
    if remainder = 8 then some h
    else setAt h num_zero_bytes ((1 <<< remainder) - 1)

/-- One pass of the pairing loop body `(0..hashes.len()).step_by(2)`: hash the
64-byte concatenation of each adjacent pair, left to right. It is only ever
applied to even-length levels (the caller pads first), so the one-element
fallback of the Rust `get(i + 1).unwrap()` panic is unreachable. -/
def pairHash : List (List Nat) → List (List Nat)
  | a :: b :: rest => hash (a ++ b) :: pairHash rest
  | _ => []

/-- One iteration of the `while hashes.len() != 1` loop in `MerkleTree::new`:
duplicate the last digest when the level is odd, then pair-and-hash. -/
def step (hs : List (List Nat)) : List (List Nat) :=
  pairHash (if hs.length % 2 = 1 then hs ++ [hs.getLast!] else hs)

/-- The `while hashes.len() != 1` loop, fuelled: `none` means the fuel ran out
before the loop exited (for the empty level the loop never exits). -/
def reduceFuel : Nat → List (List Nat) → Option (List Nat)
  | _, [h] => some h
  | 0, _ => none
  | f + 1, hs => reduceFuel f (step hs)

/-- `MerkleTree::new` (src/core/crypto.rs lines 155-178): hash each leaf, then
reduce levels until one digest remains. Fuel `leaves.length` always suffices
for a non-empty input (proved below); the empty input loops forever in the
source, which surfaces here as `none` for every fuel amount. -/
def MerkleTree.new (leaves : List (List Nat)) : Option (List Nat) :=
  reduceFuel leaves.length (leaves.map hash)

/-- `TransactionInput` (src/core/transaction.rs): a 32-byte utxo id and an
`i32` output index. -/
structure TransactionInput where
  utxo_id : List Nat
  output_index : Int
  deriving DecidableEq

/-- The coinbase sentinel utxo id: all 32 bytes zero. -/
def COINBASE_UTXO_ID : List Nat := List.replicate 32 0

/-- The coinbase sentinel output index. -/
def COINBASE_OUTPUT_INDEX : Int := -1

/-- `TransactionInput::is_coinbase`. -/
def TransactionInput.is_coinbase (i : TransactionInput) : Bool :=
  i.utxo_id == COINBASE_UTXO_ID && i.output_index == COINBASE_OUTPUT_INDEX

/-- `TransactionInput::new_coinbase`. -/
def TransactionInput.new_coinbase : TransactionInput :=
  ⟨COINBASE_UTXO_ID, COINBASE_OUTPUT_INDEX⟩

/-- The `Display` text of a `TransactionInput`: utxo id hex then the decimal
(signed) output index, no separator. -/
def TransactionInput.display (i : TransactionInput) : String :=
  as_hex i.utxo_id ++ toString i.output_index

/-- `TransactionOutput` (src/core/transaction.rs): an address label and a
`Luxcoin` (`i64`) amount. -/
structure TransactionOutput where
  toAddr : String
  amount : Int
  deriving DecidableEq

/-- The `Display` text of a `TransactionOutput`: the address text followed by
the `Luxcoin` display, which is the decimal amount followed by " LUX".
(`toAddr` models the source field named `to`, a reserved token here.) -/
def TransactionOutput.display (o : TransactionOutput) : String :=
  o.toAddr ++ (toString o.amount ++ " LUX")

/-- `LuxError` (src/core/error.rs), restricted to the variant this core
raises. -/
inductive LuxError where
  | InvalidTransaction (msg : String) : LuxError
  deriving DecidableEq

/-- `Transaction::hash_transaction_data`: hash of the concatenated display
texts of all inputs then all outputs, joined with no separators. -/
def hash_transaction_data (inputs : List TransactionInput)
    (outputs : List TransactionOutput) : List Nat :=
  hash (strBytes (String.join (inputs.map TransactionInput.display) ++
    String.join (outputs.map TransactionOutput.display)))

/-- `Transaction` (src/core/transaction.rs): id, inputs, outputs, locktime. -/
structure Transaction where
  id : List Nat
  inputs : List TransactionInput
  outputs : List TransactionOutput
  locktime : Nat
  deriving DecidableEq

/-- `Transaction::validate_format`: reject when some input is the coinbase
sentinel but the transaction does not have exactly one input and one
output. -/
def Transaction.validate_format (tx : Transaction) : Except LuxError Unit :=
  let contains_coinbase_inputs := tx.inputs.any TransactionInput.is_coinbase
  let coinbase_requirements_satisfied :=
    tx.inputs.length == 1 && tx.outputs.length == 1
  if contains_coinbase_inputs && !coinbase_requirements_satisfied then
    .error (.InvalidTransaction ("Transaction: " ++ as_hex tx.id ++
      " has the coinbase input, but it doesn\x27t satisfy all coinbase requirements."))
  else
    .ok ()

/-- `Transaction::new`: compute the id, build the value, validate its format,
and return it only when validation passes. -/
def Transaction.new (inputs : List TransactionInput)
    (outputs : List TransactionOutput) (locktime : Nat) :
    Except LuxError Transaction :=
  let id := hash_transaction_data inputs outputs
  let transaction : Transaction := ⟨id, inputs, outputs, locktime⟩
  match transaction.validate_format with
  | .error e => .error e
  | .ok _ => .ok transaction

/-- `BlockHeader` (src/core/block.rs): previous hash, merkle root, and three
`u32` fields. -/
structure BlockHeader where
  previous_block_hash : List Nat
  merkle_root : List Nat
  timestamp : Nat
  difficulty : Nat
  nonce : Nat

/-- `BlockHeader::hash`: SHA-256 of the UTF-8 bytes of the five display texts
concatenated in field order with no separators (hex for the two digests,
decimal for the three integers). -/
def BlockHeader.hash (h : BlockHeader) : List Nat :=
  Lux.hash (strBytes (as_hex h.previous_block_hash ++ as_hex h.merkle_root ++
    toString h.timestamp ++ toString h.difficulty ++ toString h.nonce))

end Lux

deriving instance DecidableEq for Except

namespace Lux

/-! ## Helper lemmas about `zeroFirst` and `setAt` -/

theorem zeroFirst_replicate (v : Nat) :
    ∀ (k m : Nat), k ≤ m →
      zeroFirst (List.replicate m v) k =
        some (List.replicate k 0 ++ List.replicate (m - k) v) := by
  intro k
  induction k with
  | zero => intro m _; simp [zeroFirst]
  | succ k ih =>
    intro m hkm
    match m, hkm with
    | m + 1, hkm =>
      have hk : k ≤ m := Nat.le_of_succ_le_succ hkm
      simp [List.replicate_succ, zeroFirst, ih m hk]

theorem zeroFirst_none : ∀ (l : List Nat) (k : Nat), l.length < k →
    zeroFirst l k = none := by
  intro l
  induction l with
  | nil =>
    intro k hk
    match k, hk with
    | k + 1, _ => rfl
  | cons h t ih =>
    intro k hk
    match k, hk with
    | k + 1, hk =>
      have : t.length < k := Nat.lt_of_succ_lt_succ hk
      simp [zeroFirst, ih k this]

theorem setAt_at_append (v w : Nat) :
    ∀ (pre rest : List Nat),
      setAt (pre ++ w :: rest) pre.length v = some (pre ++ v :: rest) := by
  intro pre
  induction pre with
  | nil => intro rest; rfl
  | cons h t ih => intro rest; simp [setAt, ih rest]

theorem setAt_none (v : Nat) : ∀ (l : List Nat) (k : Nat), l.length ≤ k →
    setAt l k v = none := by
  intro l
  induction l with
  | nil => intro k _; cases k <;> rfl
  | cons h t ih =>
    intro k hk
    match k, hk with
    | k + 1, hk =>
      have : t.length ≤ k := Nat.le_of_succ_le_succ hk
      simp [setAt, ih k this]

theorem getD_replicate_of_lt (a d : Nat) :
    ∀ (n i : Nat), i < n → (List.replicate n a).getD i d = a := by
  intro n
  induction n with
  | zero => intro i hi; omega
  | succ n ih =>
    intro i hi
    match i with
    | 0 => rfl
    | i + 1 => exact ih i (Nat.lt_of_succ_lt_succ hi)

/-- The exact shape of a non-panicking `target_hash` result: `n / 8` zero
bytes, then (for a partial byte) the mask byte, then 0xff bytes. -/
theorem target_hash_some_shape (n : Nat) (out : List Nat)
    (h : target_hash n = some out) :
    (n % 8 = 0 ∧ n / 8 ≤ 32 ∧
      out = List.replicate (n / 8) 0 ++ List.replicate (32 - n / 8) 255) ∨
    (n % 8 ≠ 0 ∧ n / 8 < 32 ∧
      out = List.replicate (n / 8) 0 ++ ((1 <<< (8 - n % 8)) - 1) ::
        List.replicate (31 - n / 8) 255) := by
  have h' : (match zeroFirst (List.replicate 32 255) (n / 8) with
      | none => none
      | some t => if 8 - n % 8 = 8 then some t
          else setAt t (n / 8) ((1 <<< (8 - n % 8)) - 1)) = some out := h
  clear h
  by_cases hk : n / 8 ≤ 32
  · rw [zeroFirst_replicate 255 (n / 8) 32 hk] at h'
    simp only at h'
    by_cases hm : 8 - n % 8 = 8
    · rw [if_pos hm] at h'
      left
      have hm0 : n % 8 = 0 := by omega
      exact ⟨hm0, hk, (Option.some_injective _ h').symm⟩
    · rw [if_neg hm] at h'
      right
      have hm0 : n % 8 ≠ 0 := by omega
      by_cases hklt : n / 8 < 32
      · have hsplit : 32 - n / 8 = (31 - n / 8) + 1 := by omega
        rw [hsplit, List.replicate_succ] at h'
        have hset := setAt_at_append ((1 <<< (8 - n % 8)) - 1) 255
          (List.replicate (n / 8) 0) (List.replicate (31 - n / 8) 255)
        rw [List.length_replicate] at hset
        rw [hset] at h'
        exact ⟨hm0, hklt, (Option.some_injective _ h').symm⟩
      · exfalso
        have hk32 : n / 8 = 32 := by omega
        rw [setAt_none _ _ _ (by simp [hk32])] at h'
        exact Option.noConfusion h'
  · exfalso
    rw [zeroFirst_none _ _ (by simp; omega)] at h'
    exact Option.noConfusion h'

/-- `target_hash` with its `let` bindings and `match` laid bare. -/
theorem target_hash_eq (n : Nat) :
    target_hash n = match zeroFirst (List.replicate 32 255) (n / 8) with
      | none => none
      | some t => if 8 - n % 8 = 8 then some t
          else setAt t (n / 8) ((1 <<< (8 - n % 8)) - 1) := rfl

/-- C4: whenever `target_hash` returns, the 32-byte result is `n / 8` zero
bytes, then (when `n` is not a multiple of 8) the byte
`(1 <<< (8 - n % 8)) - 1`, then 0xff bytes; and the concrete values at
0, 8 and 12 are as the spec lists them. -/
theorem C4_target_hash_byte_layout :
    (∀ n out, target_hash n = some out →
      out.length = 32 ∧
      ∀ i, i < 32 →
        out.getD i 0 =
          if i < n / 8 then 0
          else if i = n / 8 ∧ n % 8 ≠ 0 then (1 <<< (8 - n % 8)) - 1
          else 255) ∧
    target_hash 0 = some (List.replicate 32 255) ∧
    target_hash 8 = some (0 :: List.replicate 31 255) ∧
    target_hash 12 = some (0 :: 15 :: List.replicate 30 255) := by
  refine ⟨?_, by decide, by decide, by decide⟩
  intro n out h
  rcases target_hash_some_shape n out h with ⟨hm0, hk, rfl⟩ | ⟨hm0, hklt, rfl⟩
  · refine ⟨by simp; omega, ?_⟩
    intro i hi
    by_cases hik : i < n / 8
    · rw [List.getD_append _ _ _ _ (by simp [hik]),
        getD_replicate_of_lt _ _ _ _ hik, if_pos hik]
    · rw [List.getD_append_right _ _ _ _ (by simp; omega)]
      simp only [List.length_replicate]
      rw [getD_replicate_of_lt _ _ _ _ (by omega),
        if_neg hik, if_neg (by simp [hm0])]
  · refine ⟨by simp; omega, ?_⟩
    intro i hi
    by_cases hik : i < n / 8
    · rw [List.getD_append _ _ _ _ (by simp [hik]),
        getD_replicate_of_lt _ _ _ _ hik, if_pos hik]
    · rw [List.getD_append_right _ _ _ _ (by simp; omega)]
      simp only [List.length_replicate]
      by_cases hieq : i = n / 8
      · rw [show i - n / 8 = 0 from by omega, List.getD_cons_zero,
          if_neg hik, if_pos ⟨hieq, hm0⟩]
      · rw [show i - n / 8 = (i - n / 8 - 1) + 1 from by omega,
          List.getD_cons_succ, getD_replicate_of_lt _ _ _ _ (by omega),
          if_neg hik, if_neg (by simp [hieq])]

/-- C10: `target_hash` returns (no out-of-bounds write) for every
`n_zero_bits ≤ 256`, yields the all-zero value at exactly 256, and panics
(models as `none`) for every `n_zero_bits > 256`. -/
theorem C10_target_hash_bounds :
    (∀ n, n ≤ 256 → ∃ out, target_hash n = some out) ∧
    target_hash 256 = some (List.replicate 32 0) ∧
    (∀ n, 256 < n → target_hash n = none) := by
  refine ⟨?_, by decide, ?_⟩
  · intro n hn
    have hk : n / 8 ≤ 32 := by omega
    rw [target_hash_eq, zeroFirst_replicate 255 (n / 8) 32 hk]
    by_cases hm : 8 - n % 8 = 8
    · exact ⟨List.replicate (n / 8) 0 ++ List.replicate (32 - n / 8) 255,
        by simp only [if_pos hm]⟩
    · have hklt : n / 8 < 32 := by omega
      have hsplit : 32 - n / 8 = (31 - n / 8) + 1 := by omega
      have hset := setAt_at_append ((1 <<< (8 - n % 8)) - 1) 255
        (List.replicate (n / 8) 0) (List.replicate (31 - n / 8) 255)
      rw [List.length_replicate] at hset
      refine ⟨List.replicate (n / 8) 0 ++
        ((1 <<< (8 - n % 8)) - 1) :: List.replicate (31 - n / 8) 255, ?_⟩
      simp only [if_neg hm, hsplit, List.replicate_succ]
      exact hset
  · intro n hn
    rw [target_hash_eq]
    by_cases hk : n / 8 ≤ 32
    · have hk32 : n / 8 = 32 := by omega
      have hm : ¬(8 - n % 8 = 8) := by omega
      rw [zeroFirst_replicate 255 (n / 8) 32 hk]
      simp only [if_neg hm]
      exact setAt_none _ _ _ (by simp [hk32])
    · rw [zeroFirst_none _ _ (by simp; omega)]

/-- C10 witness: `target_hash` returns at 100 and panics at 300. -/
theorem C10_target_hash_bounds_witness :
    (∃ out, target_hash 100 = some out) ∧ target_hash 300 = none :=
  ⟨C10_target_hash_bounds.1 100 (by omega),
   C10_target_hash_bounds.2.2 300 (by omega)⟩

/-! ## Helper lemmas about the hex codec -/

theorem hexDigit_roundtrip : ∀ n, n < 16 → decodeHexDigit (hexChar n) = some n := by
  decide

theorem hexDecodeChars_encode : ∀ (d : List Nat), (∀ b ∈ d, b < 256) →
    hexDecodeChars
      ((d.map (fun b => [hexChar (b / 16), hexChar (b % 16)])).flatten) = some d := by
  intro d
  induction d with
  | nil => intro _; rfl
  | cons b t ih =>
    intro hb
    have hblt : b < 256 := hb b (List.mem_cons_self b t)
    have h1 : decodeHexDigit (hexChar (b / 16)) = some (b / 16) :=
      hexDigit_roundtrip _ (by omega)
    have h2 : decodeHexDigit (hexChar (b % 16)) = some (b % 16) :=
      hexDigit_roundtrip _ (by omega)
    have ht : hexDecodeChars
        ((t.map (fun b => [hexChar (b / 16), hexChar (b % 16)])).flatten) = some t :=
      ih (fun x hx => hb x (List.mem_cons_of_mem b hx))
    have hflat : ((b :: t).map (fun b => [hexChar (b / 16), hexChar (b % 16)])).flatten
        = hexChar (b / 16) :: hexChar (b % 16) ::
          (t.map (fun b => [hexChar (b / 16), hexChar (b % 16)])).flatten := by
      simp
    rw [hflat]
    show (match decodeHexDigit (hexChar (b / 16)), decodeHexDigit (hexChar (b % 16)),
        hexDecodeChars ((t.map (fun b => [hexChar (b / 16), hexChar (b % 16)])).flatten) with
      | some h, some l, some tail => some ((16 * h + l) :: tail)
      | _, _, _ => none) = some (b :: t)
    rw [h1, h2, ht]
    show some ((16 * (b / 16) + b % 16) :: t) = some (b :: t)
    have hbeq : 16 * (b / 16) + b % 16 = b := by omega
    rw [hbeq]

/-- The character list behind `as_hex`. -/
theorem as_hex_data (d : List Nat) :
    (as_hex d).data = (d.map (fun b => [hexChar (b / 16), hexChar (b % 16)])).flatten :=
  rfl

theorem as_hex_length : ∀ (d : List Nat), (as_hex d).length = 2 * d.length := by
  intro d
  show ((d.map (fun b => [hexChar (b / 16), hexChar (b % 16)])).flatten).length =
    2 * d.length
  induction d with
  | nil => rfl
  | cons b t ih => simp only [List.map_cons, List.flatten_cons, List.length_append,
      List.length_cons, List.length_nil, ih]; omega

theorem hexChar_mem : ∀ n, n < 16 → hexChar n ∈ lowerHexDigits := by decide

theorem as_hex_chars (d : List Nat) (hb : ∀ b ∈ d, b < 256) :
    ∀ c ∈ (as_hex d).data, c ∈ lowerHexDigits := by
  intro c hc
  rw [as_hex_data] at hc
  rcases List.mem_flatten.mp hc with ⟨pair, hpair, hcp⟩
  rcases List.mem_map.mp hpair with ⟨b, hbmem, rfl⟩
  have hblt : b < 256 := hb b hbmem
  simp only [List.mem_cons, List.mem_singleton, List.not_mem_nil, or_false] at hcp
  rcases hcp with rfl | rfl
  · exact hexChar_mem _ (by omega)
  · exact hexChar_mem _ (by omega)

theorem hexDecodeChars_none_iff : ∀ (cs : List Char),
    (hexDecodeChars cs = none ↔
      ¬(cs.length % 2 = 0 ∧ ∀ c ∈ cs, (decodeHexDigit c).isSome = true))
  | [] => by simp [hexDecodeChars]
  | [c] => by simp [hexDecodeChars]
  | a :: b :: t => by
    have ih := hexDecodeChars_none_iff t
    have hlen : (a :: b :: t).length % 2 = t.length % 2 := by
      simp only [List.length_cons]; omega
    cases ha : decodeHexDigit a with
    | none =>
      refine iff_of_true (by simp [hexDecodeChars, ha]) ?_
      rintro ⟨_, hall⟩
      have := hall a (List.mem_cons_self a (b :: t))
      rw [ha] at this
      cases this
    | some x =>
      cases hb : decodeHexDigit b with
      | none =>
        refine iff_of_true (by simp [hexDecodeChars, ha, hb]) ?_
        rintro ⟨_, hall⟩
        have := hall b (List.mem_cons_of_mem a (List.mem_cons_self b t))
        rw [hb] at this
        cases this
      | some y =>
        cases ht : hexDecodeChars t with
        | none =>
          refine iff_of_true (by simp [hexDecodeChars, ha, hb, ht]) ?_
          rintro ⟨hmod, hall⟩
          refine ih.mp ht ⟨by omega, ?_⟩
          intro c hc
          exact hall c (List.mem_cons_of_mem a (List.mem_cons_of_mem b hc))
        | some bs =>
          have hP : t.length % 2 = 0 ∧ ∀ c ∈ t, (decodeHexDigit c).isSome = true := by
            by_contra hP
            exact Option.some_ne_none bs (ht ▸ ih.mpr hP)
          refine iff_of_false (by simp [hexDecodeChars, ha, hb, ht]) ?_
          rw [not_not]
          refine ⟨by omega, ?_⟩
          intro c hc
          rcases List.mem_cons.mp hc with rfl | hc
          · simp [ha]
          rcases List.mem_cons.mp hc with rfl | hc
          · simp [hb]
          · exact hP.2 c hc

/-- C6: `hash` is deterministic, and `from_hex` inverts `as_hex` on every
32-byte digest. -/
theorem C6_hash_deterministic_hex_roundtrip :
    (∀ b1 b2 : List Nat, b1 = b2 → hash b1 = hash b2) ∧
    (∀ d : List Nat, d.length = 32 → (∀ b ∈ d, b < 256) →
      from_hex (as_hex d) = .ok d) := by
  refine ⟨fun b1 b2 h => congrArg hash h, ?_⟩
  intro d hlen hb
  unfold from_hex
  rw [as_hex_data, hexDecodeChars_encode d hb]
  simp [hlen]

/-- C6 witness: determinism and the round trip at concrete digests. -/
theorem C6_hash_deterministic_hex_roundtrip_witness :
    hash [1, 2, 3] = hash [1, 2, 3] ∧
    from_hex (as_hex (List.replicate 32 7)) = .ok (List.replicate 32 7) :=
  ⟨C6_hash_deterministic_hex_roundtrip.1 [1, 2, 3] [1, 2, 3] rfl,
   C6_hash_deterministic_hex_roundtrip.2 (List.replicate 32 7) (by decide)
     (fun b hb => by simp at hb; omega)⟩

/-- C8: `from_hex` fails with the decode error exactly when the text is not
valid hexadecimal (odd length or a non-hex character), fails with the length
error exactly when decoding succeeds with a byte count other than 32, and
succeeds exactly on the full decoded 32-byte digest (never truncated or
padded). -/
theorem C8_from_hex_failure_modes (s : String) :
    (from_hex s = .error .decodeError ↔
      ¬(s.length % 2 = 0 ∧ ∀ c ∈ s.data, (decodeHexDigit c).isSome = true)) ∧
    (∀ n, from_hex s = .error (.lengthError n) ↔
      ∃ bs, hexDecodeChars s.data = some bs ∧ bs.length = n ∧ n ≠ 32) ∧
    (∀ d, from_hex s = .ok d ↔ hexDecodeChars s.data = some d ∧ d.length = 32) := by
  have hslen : s.length = s.data.length := rfl
  have hfh : from_hex s = match hexDecodeChars s.data with
      | none => .error .decodeError
      | some bytes =>
        if bytes.length = 32 then .ok bytes
        else .error (.lengthError bytes.length) := rfl
  cases h : hexDecodeChars s.data with
  | none =>
    rw [h] at hfh
    refine ⟨?_, ?_, ?_⟩
    · rw [hslen, ← hexDecodeChars_none_iff s.data]
      exact iff_of_true hfh h
    · intro n
      refine iff_of_false (by rw [hfh]; simp) (by simp [h])
    · intro d
      refine iff_of_false (by rw [hfh]; simp) (by simp [h])
  | some bs =>
    rw [h] at hfh
    have hfh2 : from_hex s =
        if bs.length = 32 then .ok bs else .error (.lengthError bs.length) := hfh
    clear hfh
    have hnone : ¬(hexDecodeChars s.data = none) := by simp [h]
    rw [hexDecodeChars_none_iff s.data, not_not] at hnone
    by_cases hl : bs.length = 32
    · rw [if_pos hl] at hfh2
      refine ⟨?_, ?_, ?_⟩
      · rw [hslen]
        exact iff_of_false (by rw [hfh2]; simp) (not_not.mpr hnone)
      · intro n
        refine iff_of_false (by rw [hfh2]; simp) ?_
        rintro ⟨bs', hbs', hlen', hne⟩
        have hbb : bs = bs' := Option.some_injective _ hbs'
        apply hne
        rw [← hlen', ← hbb]
        exact hl
      · intro d
        rw [hfh2]
        constructor
        · intro hd
          have hbd : bs = d := Except.ok.inj hd
          exact ⟨by rw [hbd], hbd ▸ hl⟩
        · rintro ⟨hd, _⟩
          have hbd : bs = d := Option.some_injective _ hd
          rw [hbd]
    · rw [if_neg hl] at hfh2
      refine ⟨?_, ?_, ?_⟩
      · rw [hslen]
        exact iff_of_false (by rw [hfh2]; simp) (not_not.mpr hnone)
      · intro n
        rw [hfh2]
        constructor
        · intro hd
          have hin : bs.length = n := FromHexError.lengthError.inj (Except.error.inj hd)
          exact ⟨bs, rfl, hin, hin ▸ hl⟩
        · rintro ⟨bs', hbs', hlen', hne⟩
          have hbb : bs = bs' := Option.some_injective _ hbs'
          rw [hbb, hlen']
      · intro d
        refine iff_of_false (by rw [hfh2]; simp) ?_
        rintro ⟨hd, hdl⟩
        have hbd : bs = d := Option.some_injective _ hd
        exact hl (hbd ▸ hdl)

/-! ## Helper lemmas about the Merkle level reduction -/

theorem getLastBang_concat : ∀ (L : List (List Nat)) (x : List Nat),
    (L ++ [x]).getLast! = x
  | [], _ => rfl
  | a :: t, x => by
    rw [List.cons_append]
    rw [show ((a :: (t ++ [x])).getLast! : List Nat) = (t ++ [x]).getLast! from ?_]
    · exact getLastBang_concat t x
    · cases t <;> rfl

theorem pairHash_length : ∀ (hs : List (List Nat)),
    (pairHash hs).length = hs.length / 2
  | [] => by simp [pairHash]
  | [a] => by simp [pairHash]
  | a :: b :: t => by
    have ih := pairHash_length t
    simp only [pairHash, List.length_cons, ih]
    omega

theorem step_even (hs : List (List Nat)) (h : hs.length % 2 = 0) :
    step hs = pairHash hs := by
  unfold step
  rw [if_neg (by omega)]

theorem step_odd (hs : List (List Nat)) (h : hs.length % 2 = 1) :
    step hs = pairHash (hs ++ [hs.getLast!]) := by
  unfold step
  rw [if_pos h]

theorem step_nil : step ([] : List (List Nat)) = [] := by rfl

theorem step_length (hs : List (List Nat)) (h2 : 2 ≤ hs.length) :
    1 ≤ (step hs).length ∧ (step hs).length < hs.length := by
  unfold step
  by_cases ho : hs.length % 2 = 1
  · rw [if_pos ho, pairHash_length]
    simp only [List.length_append, List.length_cons, List.length_nil]
    omega
  · rw [if_neg ho, pairHash_length]
    omega

theorem reduceFuel_singleton (f : Nat) (h : List Nat) :
    reduceFuel f [h] = some h := by
  simp [reduceFuel]

theorem reduceFuel_cons_cons (f : Nat) (a b : List Nat) (t : List (List Nat)) :
    reduceFuel (f + 1) (a :: b :: t) = reduceFuel f (step (a :: b :: t)) := by rfl

theorem reduceFuel_nil : ∀ (f : Nat), reduceFuel f ([] : List (List Nat)) = none := by
  intro f
  induction f with
  | zero => rfl
  | succ f ih =>
    have h1 : reduceFuel (f + 1) ([] : List (List Nat)) = reduceFuel f (step []) := by
      rfl
    rw [h1, step_nil, ih]

theorem reduceFuel_stable : ∀ (f : Nat) (hs : List (List Nat)), hs ≠ [] →
    hs.length ≤ f → reduceFuel (f + 1) hs = reduceFuel f hs := by
  intro f
  induction f with
  | zero =>
    intro hs hne hlen
    exact absurd (List.length_eq_zero.mp (Nat.le_zero.mp hlen)) hne
  | succ f ih =>
    intro hs hne hlen
    match hs with
    | [h] => rw [reduceFuel_singleton, reduceFuel_singleton]
    | a :: b :: t =>
      rw [reduceFuel_cons_cons (f + 1), reduceFuel_cons_cons f]
      have hsl := step_length (a :: b :: t) (by simp)
      have hlen2 : (a :: b :: t).length ≤ f + 1 := hlen
      exact ih (step (a :: b :: t)) (List.length_pos.mp (by omega)) (by omega)

theorem reduceFuel_isSome : ∀ (f : Nat) (hs : List (List Nat)), hs ≠ [] →
    hs.length ≤ f → (reduceFuel f hs).isSome = true := by
  intro f
  induction f with
  | zero =>
    intro hs hne hlen
    exact absurd (List.length_eq_zero.mp (Nat.le_zero.mp hlen)) hne
  | succ f ih =>
    intro hs hne hlen
    match hs with
    | [h] => rw [reduceFuel_singleton]; rfl
    | a :: b :: t =>
      rw [reduceFuel_cons_cons]
      have hsl := step_length (a :: b :: t) (by simp)
      have hlen2 : (a :: b :: t).length ≤ f + 1 := hlen
      exact ih (step (a :: b :: t)) (List.length_pos.mp (by omega)) (by omega)

theorem exists_cons_cons_of_two_le : ∀ (l : List (List Nat)), 2 ≤ l.length →
    ∃ a b t, l = a :: b :: t
  | a :: b :: t, _ => ⟨a, b, t, rfl⟩
  | [], h => by simp at h
  | [a], h => by simp at h

/-- C2: the Merkle root of an odd leaf sequence (of more than one leaf)
equals the root after explicitly appending the last leaf once more; even
levels pair adjacent digests left-to-right, hashing each concatenation
`left ++ right` (64 bytes for 32-byte digests). -/
theorem C2_merkle_odd_duplication :
    (∀ leaves : List (List Nat), leaves.length % 2 = 1 → 1 < leaves.length →
      MerkleTree.new leaves = MerkleTree.new (leaves ++ [leaves.getLast!])) ∧
    (∀ hs : List (List Nat), hs.length % 2 = 0 → step hs = pairHash hs) ∧
    (∀ (a b : List Nat) (rest : List (List Nat)),
      pairHash (a :: b :: rest) = hash (a ++ b) :: pairHash rest) := by
  refine ⟨?_, step_even, fun a b rest => by simp [pairHash]⟩
  intro leaves hodd hgt
  rcases List.eq_nil_or_concat leaves with rfl | ⟨L, x, rfl⟩
  · simp at hgt
  simp only [List.concat_eq_append] at hodd hgt ⊢
  have hodd2 : (L.length + 1) % 2 = 1 := by simpa using hodd
  have hLlen : 2 ≤ L.length := by
    simp only [List.length_append, List.length_cons, List.length_nil] at hgt
    omega
  rw [getLastBang_concat L x]
  have hmap1 : (L ++ [x]).map hash = L.map hash ++ [hash x] := by simp
  have hmap2 : ((L ++ [x]) ++ [x]).map hash = (L.map hash ++ [hash x]) ++ [hash x] := by
    simp
  have hstepodd : step (L.map hash ++ [hash x]) =
      pairHash ((L.map hash ++ [hash x]) ++ [hash x]) := by
    rw [step_odd _ (by simp only [List.length_append, List.length_map,
      List.length_cons, List.length_nil]; omega), getLastBang_concat]
  have hstepeven : step ((L.map hash ++ [hash x]) ++ [hash x]) =
      pairHash ((L.map hash ++ [hash x]) ++ [hash x]) :=
    step_even _ (by simp only [List.length_append, List.length_map,
      List.length_cons, List.length_nil]; omega)
  have hL : MerkleTree.new (L ++ [x]) =
      reduceFuel L.length (pairHash ((L.map hash ++ [hash x]) ++ [hash x])) := by
    unfold MerkleTree.new
    obtain ⟨a, b, t, heq⟩ := exists_cons_cons_of_two_le (L.map hash ++ [hash x])
      (by simp only [List.length_append, List.length_map, List.length_cons,
        List.length_nil]; omega)
    rw [hmap1, show (L ++ [x]).length = L.length + 1 from by simp, heq,
      reduceFuel_cons_cons, ← heq, hstepodd]
  have hR : MerkleTree.new ((L ++ [x]) ++ [x]) =
      reduceFuel (L.length + 1) (pairHash ((L.map hash ++ [hash x]) ++ [hash x])) := by
    unfold MerkleTree.new
    obtain ⟨a, b, t, heq⟩ := exists_cons_cons_of_two_le
      ((L.map hash ++ [hash x]) ++ [hash x])
      (by simp only [List.length_append, List.length_map, List.length_cons,
        List.length_nil]; omega)
    rw [hmap2, show ((L ++ [x]) ++ [x]).length = (L.length + 1) + 1 from by simp, heq,
      reduceFuel_cons_cons, ← heq, hstepeven]
  rw [hL, hR]
  have hTlen : (pairHash ((L.map hash ++ [hash x]) ++ [hash x])).length =
      L.length / 2 + 1 := by
    rw [pairHash_length]
    simp only [List.length_append, List.length_map, List.length_cons, List.length_nil]
    omega
  exact (reduceFuel_stable L.length _ (List.length_pos.mp (by omega)) (by omega)).symm

/-- C2 witness: the duplication equivalence at a concrete 3-leaf input. -/
theorem C2_merkle_odd_duplication_witness :
    MerkleTree.new [[0], [1], [2]] =
      MerkleTree.new ([[0], [1], [2]] ++ [([[0], [1], [2]] : List (List Nat)).getLast!]) :=
  C2_merkle_odd_duplication.1 [[0], [1], [2]] (by decide) (by decide)

/-- C9: the Merkle level-reduction loop terminates with a root exactly for
non-empty leaf sequences; on the empty sequence it runs forever, which the
fuelled model shows by returning `none` at every fuel amount. -/
theorem C9_merkle_termination :
    (∀ leaves : List (List Nat), (MerkleTree.new leaves).isSome = true ↔ leaves ≠ []) ∧
    (∀ f, reduceFuel f ([] : List (List Nat)) = none) := by
  refine ⟨?_, reduceFuel_nil⟩
  intro leaves
  constructor
  · intro hsome hnil
    rw [hnil] at hsome
    have hnone : MerkleTree.new ([] : List (List Nat)) = none := rfl
    rw [hnone] at hsome
    cases hsome
  · intro hne
    have hpos : 0 < leaves.length := List.length_pos.mpr hne
    exact reduceFuel_isSome leaves.length (leaves.map hash)
      (List.length_pos.mp (by simpa using hpos)) (by simp)

/-- C9 witness: a singleton terminates with a root; the empty level yields
nothing at a sample fuel amount. -/
theorem C9_merkle_termination_witness :
    (MerkleTree.new [[5]]).isSome = true ∧
    reduceFuel 3 ([] : List (List Nat)) = none :=
  ⟨(C9_merkle_termination.1 [[5]]).mpr (by decide), C9_merkle_termination.2 3⟩

/-- C8 witness: the three modes at concrete inputs. -/
theorem C8_from_hex_failure_modes_witness :
    from_hex "zz" = .error .decodeError ∧
    from_hex "abcd" = .error (.lengthError 2) ∧
    from_hex (as_hex (List.replicate 32 0)) = .ok (List.replicate 32 0) :=
  ⟨(C8_from_hex_failure_modes "zz").1.mpr (by decide),
   ((C8_from_hex_failure_modes "abcd").2.1 2).mpr ⟨[171, 205], by decide, rfl, by decide⟩,
   ((C8_from_hex_failure_modes (as_hex (List.replicate 32 0))).2.2
     (List.replicate 32 0)).mpr ⟨by decide, by decide⟩⟩

/-- C4 witness: the layout statement instantiated at `n_zero_bits = 12`. -/
theorem C4_target_hash_byte_layout_witness :
    (0 :: 15 :: List.replicate 30 255 : List Nat).length = 32 ∧
    ∀ i, i < 32 →
      (0 :: 15 :: List.replicate 30 255 : List Nat).getD i 0 =
        if i < 12 / 8 then 0
        else if i = 12 / 8 ∧ 12 % 8 ≠ 0 then (1 <<< (8 - 12 % 8)) - 1
        else 255 :=
  C4_target_hash_byte_layout.1 12 (0 :: 15 :: List.replicate 30 255) (by decide)

/-! ## Transaction construction (C1, C5) -/

/-- `Transaction::new` unfolded to its validation match. -/
theorem Transaction.new_eq (inputs : List TransactionInput)
    (outputs : List TransactionOutput) (locktime : Nat) :
    Transaction.new inputs outputs locktime =
      match Transaction.validate_format
          ⟨hash_transaction_data inputs outputs, inputs, outputs, locktime⟩ with
      | .error e => .error e
      | .ok _ => .ok ⟨hash_transaction_data inputs outputs, inputs, outputs, locktime⟩ :=
  rfl

/-- `Transaction::validate_format` on an explicit record. -/
theorem validate_format_mk (id : List Nat) (inputs : List TransactionInput)
    (outputs : List TransactionOutput) (locktime : Nat) :
    Transaction.validate_format ⟨id, inputs, outputs, locktime⟩ =
      if inputs.any TransactionInput.is_coinbase &&
          !(inputs.length == 1 && outputs.length == 1) then
        .error (.InvalidTransaction ("Transaction: " ++ as_hex id ++
          " has the coinbase input, but it doesn\x27t satisfy all coinbase requirements."))
      else .ok () :=
  rfl

/-- The single closed form of `Transaction::new`. -/
theorem Transaction.new_spec (inputs : List TransactionInput)
    (outputs : List TransactionOutput) (locktime : Nat) :
    Transaction.new inputs outputs locktime =
      if inputs.any TransactionInput.is_coinbase &&
          !(inputs.length == 1 && outputs.length == 1) then
        .error (.InvalidTransaction ("Transaction: " ++
          as_hex (hash_transaction_data inputs outputs) ++
          " has the coinbase input, but it doesn\x27t satisfy all coinbase requirements."))
      else .ok ⟨hash_transaction_data inputs outputs, inputs, outputs, locktime⟩ := by
  rw [Transaction.new_eq, validate_format_mk]
  by_cases hc : (inputs.any TransactionInput.is_coinbase &&
      !(inputs.length == 1 && outputs.length == 1)) = true
  · rw [if_pos hc, if_pos hc]
  · rw [if_neg hc, if_neg hc]

/-- C1: `Transaction::new` fails with an error if and only if the input list
contains the coinbase sentinel while the shape is not exactly one input and
one output; in every other case it returns the constructed transaction, and
a failure carries only the error, never a transaction. -/
theorem C1_transaction_new_coinbase_guard (inputs : List TransactionInput)
    (outputs : List TransactionOutput) (locktime : Nat) :
    ((∃ e, Transaction.new inputs outputs locktime = .error e) ↔
      ((∃ i ∈ inputs, i.is_coinbase = true) ∧
        ¬(inputs.length = 1 ∧ outputs.length = 1))) ∧
    (∀ tx, Transaction.new inputs outputs locktime = .ok tx →
      tx = ⟨hash_transaction_data inputs outputs, inputs, outputs, locktime⟩) := by
  have hspec := Transaction.new_spec inputs outputs locktime
  have hcond : (inputs.any TransactionInput.is_coinbase &&
      !(inputs.length == 1 && outputs.length == 1)) = true ↔
      ((∃ i ∈ inputs, i.is_coinbase = true) ∧
        ¬(inputs.length = 1 ∧ outputs.length = 1)) := by
    simp [List.any_eq_true]
    intros
    tauto
  by_cases hc : (inputs.any TransactionInput.is_coinbase &&
      !(inputs.length == 1 && outputs.length == 1)) = true
  · rw [if_pos hc] at hspec
    refine ⟨iff_of_true ⟨_, hspec⟩ (hcond.mp hc), ?_⟩
    intro tx htx
    rw [htx] at hspec
    exact absurd hspec (by simp)
  · rw [if_neg hc] at hspec
    refine ⟨iff_of_false ?_ (fun hP => hc (hcond.mpr hP)), ?_⟩
    · rintro ⟨e, he⟩
      rw [he] at hspec
      exact absurd hspec (by simp)
    · intro tx htx
      rw [htx] at hspec
      exact Except.ok.inj hspec

/-- C1 witness: a coinbase input with two outputs is rejected; an ordinary
single-input single-output transaction is returned as constructed. -/
theorem C1_transaction_new_coinbase_guard_witness :
    (∃ e, Transaction.new [TransactionInput.new_coinbase]
      [⟨"alice", 1⟩, ⟨"bob", 2⟩] 0 = .error e) ∧
    (∀ tx, Transaction.new [⟨List.replicate 32 1, 0⟩] [⟨"alice", 1⟩] 0 = .ok tx →
      tx = ⟨hash_transaction_data [⟨List.replicate 32 1, 0⟩] [⟨"alice", 1⟩],
        [⟨List.replicate 32 1, 0⟩], [⟨"alice", 1⟩], 0⟩) :=
  ⟨(C1_transaction_new_coinbase_guard [TransactionInput.new_coinbase]
      [⟨"alice", 1⟩, ⟨"bob", 2⟩] 0).1.mpr (by decide),
   (C1_transaction_new_coinbase_guard [⟨List.replicate 32 1, 0⟩] [⟨"alice", 1⟩] 0).2⟩

/-- C5: every transaction accepted by `Transaction::new` carries as its id the
SHA-256 of the UTF-8 bytes of all input display texts (utxo id hex, then the
decimal output index) followed by all output display texts (the recipient
label, then the decimal amount with the " LUX" suffix of the Luxcoin
display), joined with no separators; the id equals the value fixed at
construction. -/
theorem C5_transaction_identity (inputs : List TransactionInput)
    (outputs : List TransactionOutput) (locktime : Nat) (tx : Transaction)
    (h : Transaction.new inputs outputs locktime = .ok tx) :
    tx.id = hash (strBytes (
      String.join (inputs.map (fun i => as_hex i.utxo_id ++ toString i.output_index)) ++
      String.join (outputs.map (fun o => o.toAddr ++ (toString o.amount ++ " LUX"))))) ∧
    tx.id = hash_transaction_data inputs outputs := by
  have hspec := Transaction.new_spec inputs outputs locktime
  by_cases hc : (inputs.any TransactionInput.is_coinbase &&
      !(inputs.length == 1 && outputs.length == 1)) = true
  · rw [if_pos hc] at hspec
    rw [h] at hspec
    exact absurd hspec (by simp)
  · rw [if_neg hc] at hspec
    rw [h] at hspec
    have htx : tx = ⟨hash_transaction_data inputs outputs, inputs, outputs, locktime⟩ :=
      Except.ok.inj hspec
    rw [htx]
    exact ⟨rfl, rfl⟩

/-- C5 witness: the identity equation at a concrete accepted transaction. -/
theorem C5_transaction_identity_witness :
    (⟨hash_transaction_data [⟨List.replicate 32 1, 0⟩] [⟨"addr", 5⟩],
        [⟨List.replicate 32 1, 0⟩], [⟨"addr", 5⟩], 3⟩ : Transaction).id =
      hash (strBytes (
        String.join ([⟨List.replicate 32 1, 0⟩].map
          (fun i : TransactionInput => as_hex i.utxo_id ++ toString i.output_index)) ++
        String.join ([⟨"addr", 5⟩].map
          (fun o : TransactionOutput => o.toAddr ++ (toString o.amount ++ " LUX"))))) :=
  (C5_transaction_identity [⟨List.replicate 32 1, 0⟩] [⟨"addr", 5⟩] 3
    ⟨hash_transaction_data [⟨List.replicate 32 1, 0⟩] [⟨"addr", 5⟩],
      [⟨List.replicate 32 1, 0⟩], [⟨"addr", 5⟩], 3⟩
    (by rw [Transaction.new_spec]; rfl)).1

/-! ## Block header hashing (C3) -/

theorem strBytes_append (a b : String) :
    strBytes (a ++ b) = strBytes a ++ strBytes b := by
  unfold strBytes
  rw [show (a ++ b).data = a.data ++ b.data from rfl, List.map_append, List.flatten_append]

/-- C3: the block header hash is the SHA-256 of the byte concatenation of the
five display texts in field order with no separators; the two digest fields
render as exactly 64 lowercase hex characters each. -/
theorem C3_block_header_hash (h : BlockHeader)
    (hp : h.previous_block_hash.length = 32)
    (hpb : ∀ b ∈ h.previous_block_hash, b < 256)
    (hm : h.merkle_root.length = 32)
    (hmb : ∀ b ∈ h.merkle_root, b < 256) :
    BlockHeader.hash h = hash (
      strBytes (as_hex h.previous_block_hash) ++ strBytes (as_hex h.merkle_root) ++
      strBytes (toString h.timestamp) ++ strBytes (toString h.difficulty) ++
      strBytes (toString h.nonce)) ∧
    (as_hex h.previous_block_hash).length = 64 ∧
    (∀ c ∈ (as_hex h.previous_block_hash).data, c ∈ lowerHexDigits) ∧
    (as_hex h.merkle_root).length = 64 ∧
    (∀ c ∈ (as_hex h.merkle_root).data, c ∈ lowerHexDigits) := by
  refine ⟨?_, by rw [as_hex_length, hp], as_hex_chars _ hpb,
    by rw [as_hex_length, hm], as_hex_chars _ hmb⟩
  unfold BlockHeader.hash
  rw [strBytes_append, strBytes_append, strBytes_append, strBytes_append]

/-- C3 witness: the header hash equation at a concrete header. -/
theorem C3_block_header_hash_witness :
    BlockHeader.hash ⟨List.replicate 32 0, List.replicate 32 0, 1, 2, 3⟩ = hash (
      strBytes (as_hex (List.replicate 32 0)) ++ strBytes (as_hex (List.replicate 32 0)) ++
      strBytes (toString 1) ++ strBytes (toString 2) ++ strBytes (toString 3)) :=
  (C3_block_header_hash ⟨List.replicate 32 0, List.replicate 32 0, 1, 2, 3⟩
    (by simp) (fun b hb => by simp at hb; omega)
    (by simp) (fun b hb => by simp at hb; omega)).1

/-! ## The "hello world" digest (C7) -/

/-- C7 counterexample: the digest of `b"hello world"` is not the 63-character
literal the spec prints (the spec dropped the final hex character). -/
theorem C7_hash_hello_world_counterexample :
    as_hex (hash (strBytes "hello world")) ≠
      "b94d27b9934d3e08a52e52d7da7dabfac484efe37a5380ee9088f7ace2efcde" ∧
    ("b94d27b9934d3e08a52e52d7da7dabfac484efe37a5380ee9088f7ace2efcde" : String).length
      = 63 := by
  exact ⟨by decide, by decide⟩

/-- C7 amended: `hash(b"hello world")` renders as the 64-character lowercase
hex digest ending in `9`, matching the test in src/core/crypto.rs. -/
theorem C7_hash_hello_world :
    as_hex (hash (strBytes "hello world")) =
      "b94d27b9934d3e08a52e52d7da7dabfac484efe37a5380ee9088f7ace2efcde9" ∧
    (as_hex (hash (strBytes "hello world"))).length = 64 := by
  exact ⟨by decide, by decide⟩

end Lux
